import Mathlib

/-!
# Earthquake Visualizer: filtering, search index and summary (`frontend/src/App.jsx`)

A shallow embedding of the pure computations of the `App` component.

* JavaScript numbers received from the JSON feed are finite doubles; every finite
  double is a rational number and the comparisons `>=`, `<=`, `>` on finite
  doubles are the comparisons of their exact values, so the numbers of an event are
  embedded as `ℚ`. The arithmetic of `avgMag` is double arithmetic: every sum and
  the quotient are rounded to the nearest double, ties to even (`roundToDouble`),
  and may overflow to an infinity (`JSNumber`). A decimal literal of the sample
  data stands for the double nearest to it; every comparison and every rounding
  evaluated on the samples below has the same outcome for the two.
* JavaScript strings are embedded as Lean `String`s (sequences of code points).
  `String.prototype.toLowerCase` is a built-in of the host language; the
  definitions take it as the parameter `toLowerCase`, and `asciiToLowerCase`
  is its restriction to ASCII text, used for concrete evaluations.
* Component state (`useState`) is passed explicitly.
-/

namespace EarthquakeVisualizer

/-! ## Data model -/

/-- The `properties` object of a GeoJSON feature, as read by `App`. -/
structure Properties where
  place : String
  mag : ℚ
  time : ℚ
  deriving DecidableEq

/-- The `geometry` object: `coordinates` is `[lon, lat]`. -/
structure Geometry where
  coordinates : ℚ × ℚ
  deriving DecidableEq

/-- One element of `res.data.features`. -/
structure Feature where
  id : String
  properties : Properties
  geometry : Geometry
  deriving DecidableEq

/-- The keys of the `regionBounds` object (the values the region `<select>` can take). -/
inductive Region where
  | global
  | africa
  | asia
  | europe
  | north_america
  | south_america
  | australia
  | antarctica
  deriving DecidableEq, Repr

/-- The `regionBounds` table: `[latMin, latMax, lonMin, lonMax]`. -/
def regionBounds : Region → ℚ × ℚ × ℚ × ℚ
  | .global => (-90, 90, -180, 180)
  | .africa => (-35, 38, -20, 55)
  | .asia => (-10, 80, 60, 150)
  | .europe => (35, 72, -25, 45)
  | .north_america => (5, 85, -170, -50)
  | .south_america => (-60, 15, -90, -30)
  | .australia => (-50, -10, 110, 155)
  | .antarctica => (-90, -60, -180, 180)

/-- The closure `inRegion`, with the `region` state variable made explicit. -/
def inRegion (region : Region) (lat lon : ℚ) : Bool :=
  match regionBounds region with
  | (latMin, latMax, lonMin, lonMax) =>
    decide (lat ≥ latMin) && decide (lat ≤ latMax) && decide (lon ≥ lonMin) && decide (lon ≤ lonMax)

/-! ## Strings -/

/-- Whether `t` occurs in `s` starting at some position (`String.prototype.includes`
on the character sequences). -/
def includesChars : List Char → List Char → Bool
  | [], t => t.isEmpty
  | c :: cs, t => t.isPrefixOf (c :: cs) || includesChars cs t

/-- The method `s.includes(t)`. -/
def includes (s t : String) : Bool :=
  includesChars s.data t.data

/-- ASCII restriction of `toLowerCase`: `A`..`Z` are mapped to `a`..`z`, every
other character is kept. -/
def asciiToLowerCase (s : String) : String :=
  ⟨s.data.map Char.toLower⟩

/-- The characters removed by `String.prototype.trim`: ECMAScript `WhiteSpace`
(TAB, VT, FF, SP, NBSP, ZWNBSP and the Unicode category Zs) and `LineTerminator`
(LF, CR, LS, PS). -/
def isTrimChar (c : Char) : Bool :=
  let n := c.toNat
  n == 0x09 || n == 0x0B || n == 0x0C || n == 0x20 || n == 0xA0 || n == 0xFEFF ||
  n == 0x1680 || (0x2000 ≤ n && n ≤ 0x200A) || n == 0x202F || n == 0x205F || n == 0x3000 ||
  n == 0x0A || n == 0x0D || n == 0x2028 || n == 0x2029

/-- The method `s.trim()`: leading and trailing white space removed. -/
def trim (s : String) : String :=
  ⟨((s.data.dropWhile isTrimChar).reverse.dropWhile isTrimChar).reverse⟩

/-! ## The filter -/

/-- The constant `filteredQuakes`, with the state variables `earthquakes`, `minMag`,
`region` and `query` made explicit. -/
def filteredQuakes (toLowerCase : String → String) (earthquakes : List Feature)
    (minMag : ℚ) (region : Region) (query : String) : List Feature :=
  earthquakes.filter fun eq =>
    match eq.geometry.coordinates with
    | (lon, lat) =>
      let matchQuery :=
        query == "" || includes (toLowerCase eq.properties.place) (toLowerCase query)
      decide (eq.properties.mag ≥ minMag) && inRegion region lat lon && matchQuery

/-! ## The search index -/

/-- The method `Set.prototype.add` on the insertion-ordered element list of a `Set`:
a value already present is not added again, a new value goes to the end. -/
def setAdd (s : List String) (value : String) : List String :=
  if value ∈ s then s else s ++ [value]

/-- The expression `[...new Set(values)]`: the constructor adds the values one by one,
the spread lists the elements in insertion order. -/
def newSet (values : List String) : List String :=
  values.foldl setAdd []

/-- The constant `placeNames` (its `Array.isArray` test holds for a list). -/
def placeNames (earthquakes : List Feature) : List String :=
  newSet (earthquakes.map fun eq => eq.properties.place)

/-- The closure `getSuggestions`, with `placeNames` made explicit. -/
def getSuggestions (toLowerCase : String → String) (placeNames : List String)
    (value : String) : List String :=
  let input := toLowerCase (trim value)
  placeNames.filter fun name => includes (toLowerCase name) input

/-- The state variables of `App` (`useState`). -/
structure AppState where
  earthquakes : List Feature
  minMag : ℚ
  region : Region
  loading : Bool
  error : Bool
  query : String
  suggestions : List String
  selectedCoords : Option (ℚ × ℚ)
  deriving DecidableEq

/-- The handler `onSuggestionSelected`: the state after the call. `setSelectedCoords`
is the only setter it calls, with the pair `[lat, lon]`. -/
def onSuggestionSelected (st : AppState) (suggestion : String) : AppState :=
  match st.earthquakes.find? fun eq => eq.properties.place == suggestion with
  | some m =>
    match m.geometry.coordinates with
    | (lon, lat) => { st with selectedCoords := some (lat, lon) }
  | none => st

/-! ## The summary and the marker colour -/

/-- The values `avgMag` can take: a number or a string. -/
inductive JSValue where
  | number (x : ℚ)
  | string (s : String)
  deriving DecidableEq

/-- The string of the decimal digits of `n`, most significant first (`"0"` for zero). -/
def decimalDigits (n : ℕ) : List Char :=
  if n = 0 then ['0'] else ((Nat.digits 10 n).map Nat.digitChar).reverse

/-- The method `Number.prototype.toFixed(f)` on a finite number `x`, following the
steps of the language standard for a digit count `f` from `0` to `100` (the component
calls it with `2`). `numberToString` is the built-in `Number::toString`, used for
magnitudes from `10^21` on. -/
def toFixed (numberToString : ℚ → String) (x : ℚ) (f : ℕ) : String :=
  let s := if x < 0 then "-" else ""
  let x := if x < 0 then -x else x
  let m :=
    if x ≥ 10 ^ 21 then numberToString x
    else
      -- the integer `n` for which `n / 10^f - x` is closest to zero, the larger on a tie
      let n := ⌊x * 10 ^ f + 1 / 2⌋.toNat
      let m := decimalDigits n
      if f ≠ 0 then
        let m := if m.length ≤ f then List.replicate (f + 1 - m.length) '0' ++ m else m
        let k := m.length
        String.mk (m.take (k - f) ++ '.' :: m.drop (k - f))
      else String.mk m
  s ++ m

/-- A number of the host language: a finite double, given by its exact value, one of the
two infinities, or `NaN`. The two zeros are not told apart: sums, quotients by a positive
count, comparisons and `toFixed` give the same result for both. -/
inductive JSNumber where
  | finite (x : ℚ)
  | posInf
  | negInf
  | nan
  deriving DecidableEq

/-- The integer nearest to `y`, a tie going to the even one. -/
def roundHalfEven (y : ℚ) : ℤ :=
  if y - ⌊y⌋ < 1 / 2 then ⌊y⌋
  else if 1 / 2 < y - ⌊y⌋ then ⌊y⌋ + 1
  else if ⌊y⌋ % 2 = 0 then ⌊y⌋ else ⌊y⌋ + 1

/-- The double that an exact result `x` rounds to (IEEE 754 binary64, round to nearest,
ties to even). With `2^e ≤ |x| < 2^(e+1)` and `e` raised to `-1022` when it is below,
the doubles around `x` are the multiples of `2^(e-52)`; a rounded magnitude of `2^1024`
or more overflows to the infinity of the sign of `x`. -/
def roundToDouble (x : ℚ) : JSNumber :=
  let e := max (Int.log 2 |x|) (-1022)
  let q : ℚ := 2 ^ (e - 52)
  let r : ℚ := roundHalfEven (x / q) * q
  if 2 ^ 1024 ≤ |r| then (if 0 < x then .posInf else .negInf) else .finite r

/-- The operator `+` on two numbers. -/
def jsAdd : JSNumber → JSNumber → JSNumber
  | .finite a, .finite b => roundToDouble (a + b)
  | .nan, _ => .nan
  | _, .nan => .nan
  | .posInf, .negInf => .nan
  | .negInf, .posInf => .nan
  | .posInf, _ => .posInf
  | _, .posInf => .posInf
  | .negInf, _ => .negInf
  | _, .negInf => .negInf

/-- The operator `/` with a number on the left and a positive integer on the right: in
`avgMag` the divisor is `totalQuakes`, the length of a non-empty array (below `2^32`,
hence a double itself). -/
def jsDivByCount : JSNumber → ℕ → JSNumber
  | .finite a, n => roundToDouble (a / n)
  | .posInf, _ => .posInf
  | .negInf, _ => .negInf
  | .nan, _ => .nan

/-- The method `toFixed(f)` on any number: for an infinity or `NaN` the result is
`Number::toString` of it, which is its name. -/
def numberToFixed (numberToString : ℚ → String) : JSNumber → ℕ → String
  | .finite x, f => toFixed numberToString x f
  | .posInf, _ => "Infinity"
  | .negInf, _ => "-Infinity"
  | .nan, _ => "NaN"

/-- The constant `totalQuakes`. -/
def totalQuakes (filteredQuakes : List Feature) : ℕ :=
  filteredQuakes.length

/-- The call `filteredQuakes.reduce((sum, eq) => sum + eq.properties.mag, 0)` of
`avgMag`. -/
def sumOfMags (filteredQuakes : List Feature) : JSNumber :=
  filteredQuakes.foldl (fun sum eq => jsAdd sum (.finite eq.properties.mag)) (.finite 0)

/-- The number on which `avgMag` calls `toFixed(2)`: the sum of `reduce` divided by
`totalQuakes`. -/
def avgMagNumber (filteredQuakes : List Feature) : JSNumber :=
  jsDivByCount (sumOfMags filteredQuakes) (totalQuakes filteredQuakes)

/-- The constant `avgMag`. The quotient is only formed when `totalQuakes` is not zero. -/
def avgMag (numberToString : ℚ → String) (filteredQuakes : List Feature) : JSValue :=
  if totalQuakes filteredQuakes = 0 then .number 0
  else .string (numberToFixed numberToString (avgMagNumber filteredQuakes) 2)

/-- The function `getColor`. -/
def getColor (mag : ℚ) : String :=
  if mag > 7 then "bg-red-600"
  else if mag ≥ 4 then "bg-orange-500"
  else "bg-yellow-400"

/-! ## Reference definitions, worded as the specification -/

/-- The three predicates of the filter, as the specification words them: magnitude at
least `minMag`, position inside the box of the region (bounds included), and query
empty or contained in the place name after lowercasing both. -/
def SatisfiesFilter (toLowerCase : String → String) (minMag : ℚ) (region : Region)
    (query : String) (e : Feature) : Prop :=
  minMag ≤ e.properties.mag ∧
  (((regionBounds region).1 ≤ e.geometry.coordinates.2 ∧
      e.geometry.coordinates.2 ≤ (regionBounds region).2.1) ∧
    ((regionBounds region).2.2.1 ≤ e.geometry.coordinates.1 ∧
      e.geometry.coordinates.1 ≤ (regionBounds region).2.2.2)) ∧
  (query = "" ∨ (toLowerCase query).data <:+: (toLowerCase e.properties.place).data)

instance (toLowerCase : String → String) (minMag : ℚ) (region : Region) (query : String) :
    DecidablePred (SatisfiesFilter toLowerCase minMag region query) := fun e => by
  unfold SatisfiesFilter
  infer_instance

/-- The list of the distinct values of a list, each at the position of its first
occurrence. -/
def firstOccurrences : List String → List String
  | [] => []
  | x :: xs => x :: (firstOccurrences xs).filter (fun y => decide (y ≠ x))

/-- The arithmetic mean of the magnitudes of a list of events: sum divided by count. -/
def meanMagnitude (quakes : List Feature) : ℚ :=
  (quakes.map fun eq => eq.properties.mag).sum / quakes.length

/-- A number rounded to 2 decimal digits: the nearest multiple of `1/100`, a tie going
away from zero. -/
def roundTo2 (x : ℚ) : ℚ :=
  if x < 0 then -(round (-x * 100) / 100) else round (x * 100) / 100

/-- The value of a decimal digit character. -/
def digitValue (c : Char) : ℕ :=
  c.toNat - '0'.toNat

/-- The natural number written by a sequence of decimal digits, most significant first. -/
def digitsNumber (cs : List Char) : ℕ :=
  cs.foldl (fun acc c => 10 * acc + digitValue c) 0

/-- The number written by a non-empty string of decimal digits. -/
def digitsValue (cs : List Char) : Option ℕ :=
  if cs ≠ [] ∧ cs.all Char.isDigit = true then some (digitsNumber cs) else none

/-- The number denoted by an unsigned decimal numeral `digits` or `digits.digits`. -/
def unsignedDecimalValue (cs : List Char) : Option ℚ :=
  match cs.dropWhile (fun c => c != '.') with
  | [] => (digitsValue cs).map fun n => (n : ℚ)
  | _ :: b =>
    match digitsValue (cs.takeWhile fun c => c != '.'), digitsValue b with
    | some x, some y => some (x + y / 10 ^ b.length)
    | _, _ => none

/-- The number denoted by a decimal numeral with an optional leading minus sign. -/
def decimalValue (s : String) : Option ℚ :=
  match s.data with
  | [] => none
  | c :: cs =>
    if c = '-' then (unsignedDecimalValue cs).map fun q => -q
    else unsignedDecimalValue (c :: cs)

/-! ## Sample data -/

/-- The first event of the scenario of the specification. -/
def tokyoQuake : Feature :=
  { id := "jp1", properties := { place := "Tokyo,Japan", mag := 5.2, time := 0 },
    geometry := { coordinates := (139.7, 35.7) } }

/-- The second event of the scenario of the specification. -/
def limaQuake : Feature :=
  { id := "pe1", properties := { place := "Lima,Peru", mag := 6.8, time := 0 },
    geometry := { coordinates := (-77.0, -12.0) } }

/-- A later event at the same place as `limaQuake`, at another position. -/
def limaAftershock : Feature :=
  { id := "pe2", properties := { place := "Lima,Peru", mag := 4.1, time := 1 },
    geometry := { coordinates := (-77.1, -12.1) } }

/-- An event with a negative magnitude at a valid position. -/
def microQuake : Feature :=
  { id := "ak1", properties := { place := "Anchorage,Alaska", mag := -0.5, time := 0 },
    geometry := { coordinates := (-149.9, 61.2) } }

/-- An event of magnitude `1`. -/
def unitQuake : Feature :=
  { id := "cl1", properties := { place := "Arica,Chile", mag := 1, time := 2 },
    geometry := { coordinates := (-70.3, -18.5) } }

/-- An event whose magnitude is the double nearest to `1.01`, which is
`4548635623644201 / 2^52`. -/
def nearUnitQuake : Feature :=
  { id := "cl2",
    properties := { place := "Iquique,Chile", mag := 4548635623644201 / 2 ^ 52, time := 3 },
    geometry := { coordinates := (-70.1, -20.2) } }

/-- A state of the component after the fetch, with no coordinates selected yet. -/
def loadedState : AppState :=
  { earthquakes := [tokyoQuake, limaQuake, limaAftershock], minMag := 0,
    region := Region.global, loading := false, error := false, query := "",
    suggestions := [], selectedCoords := none }

/-! ## Region containment -/

/-- Every box of the catalog has `latMin ≤ latMax` and `lonMin ≤ lonMax`. -/
lemma regionBounds_ordered (region : Region) :
    (regionBounds region).1 ≤ (regionBounds region).2.1 ∧
      (regionBounds region).2.2.1 ≤ (regionBounds region).2.2.2 := by
  cases region <;> simp [regionBounds] <;> norm_num

/-- Unfolding of `inRegion` into the four comparisons. -/
lemma inRegion_eq_true_iff (region : Region) (lat lon : ℚ) :
    inRegion region lat lon = true ↔
      ((regionBounds region).1 ≤ lat ∧ lat ≤ (regionBounds region).2.1) ∧
        ((regionBounds region).2.2.1 ≤ lon ∧ lon ≤ (regionBounds region).2.2.2) := by
  simp [inRegion, and_assoc]

/-- C3: with the region `global`, `inRegion lat lon` holds for every latitude in
`[-90, 90]` and every longitude in `[-180, 180]`. -/
theorem inRegion_global_of_valid (lat lon : ℚ) (hlat₁ : -90 ≤ lat) (hlat₂ : lat ≤ 90)
    (hlon₁ : -180 ≤ lon) (hlon₂ : lon ≤ 180) : inRegion Region.global lat lon = true := by
  simp [inRegion, regionBounds, hlat₁, hlat₂, hlon₁, hlon₂]

/-- Witness for C3 at the coordinates of the Tokyo event. -/
theorem inRegion_global_of_valid_witness :
    (-90 : ℚ) ≤ 35.7 ∧ (35.7 : ℚ) ≤ 90 ∧ (-180 : ℚ) ≤ 139.7 ∧ (139.7 : ℚ) ≤ 180 ∧
      inRegion Region.global 35.7 139.7 = true :=
  ⟨by norm_num, by norm_num, by norm_num, by norm_num,
    inRegion_global_of_valid 35.7 139.7 (by norm_num) (by norm_num) (by norm_num) (by norm_num)⟩

/-- C4: for every region of the catalog, `inRegion lat lon` holds exactly when
`latMin ≤ lat ≤ latMax` and `lonMin ≤ lon ≤ lonMax`; a point at latitude `latMax`, or at
longitude `lonMin`, with the other coordinate inside the box, is included. -/
theorem inRegion_iff_inclusive (region : Region) :
    (∀ lat lon : ℚ, inRegion region lat lon = true ↔
      ((regionBounds region).1 ≤ lat ∧ lat ≤ (regionBounds region).2.1) ∧
        ((regionBounds region).2.2.1 ≤ lon ∧ lon ≤ (regionBounds region).2.2.2)) ∧
    (∀ lon : ℚ, (regionBounds region).2.2.1 ≤ lon → lon ≤ (regionBounds region).2.2.2 →
      inRegion region (regionBounds region).2.1 lon = true) ∧
    (∀ lat : ℚ, (regionBounds region).1 ≤ lat → lat ≤ (regionBounds region).2.1 →
      inRegion region lat (regionBounds region).2.2.1 = true) := by
  refine ⟨inRegion_eq_true_iff region, fun lon h₁ h₂ => ?_, fun lat h₁ h₂ => ?_⟩
  · exact (inRegion_eq_true_iff region _ lon).2
      ⟨⟨(regionBounds_ordered region).1, le_refl _⟩, h₁, h₂⟩
  · exact (inRegion_eq_true_iff region lat _).2
      ⟨⟨h₁, h₂⟩, le_refl _, (regionBounds_ordered region).2⟩

/-- Witness for C4: in `europe` the corner at latitude `72` (`latMax`) and longitude
`-25` (`lonMin`) is inside. -/
theorem inRegion_iff_inclusive_witness : inRegion Region.europe 72 (-25) = true :=
  (inRegion_iff_inclusive Region.europe).2.1 (-25) (by norm_num [regionBounds])
    (by norm_num [regionBounds])

/-! ## The filter is the conjunction of the three predicates -/

/-- The function `includesChars` decides the contiguous-substring relation. -/
lemma includesChars_iff (s t : List Char) : includesChars s t = true ↔ t <:+: s := by
  induction s with
  | nil => simp [includesChars, List.isEmpty_iff]
  | cons c cs ih =>
    simp only [includesChars, Bool.or_eq_true, ih, List.infix_cons_iff,
      List.isPrefixOf_iff_prefix]

/-- The method `includes` decides whether the characters of `t` occur contiguously in `s`. -/
lemma includes_iff (s t : String) : includes s t = true ↔ t.data <:+: s.data :=
  includesChars_iff s.data t.data

/-- The test of `filteredQuakes` on one event is the conjunction of the three predicates. -/
lemma filter_test_iff (toLowerCase : String → String) (minMag : ℚ) (region : Region)
    (query : String) (e : Feature) :
    (match e.geometry.coordinates with
      | (lon, lat) =>
        let matchQuery :=
          query == "" || includes (toLowerCase e.properties.place) (toLowerCase query)
        decide (e.properties.mag ≥ minMag) && inRegion region lat lon && matchQuery) = true ↔
      SatisfiesFilter toLowerCase minMag region query e := by
  obtain ⟨id, props, ⟨lon, lat⟩⟩ := e
  simp only [SatisfiesFilter, Bool.and_eq_true, Bool.or_eq_true, decide_eq_true_eq,
    inRegion_eq_true_iff, includes_iff, beq_iff_eq, ge_iff_le, and_assoc]

/-- The list `filteredQuakes` is the filter of the event list by the three predicates. -/
lemma filteredQuakes_filter_satisfies (toLowerCase : String → String)
    (earthquakes : List Feature) (minMag : ℚ) (region : Region) (query : String) :
    filteredQuakes toLowerCase earthquakes minMag region query =
      earthquakes.filter
        (fun e => decide (SatisfiesFilter toLowerCase minMag region query e)) := by
  unfold filteredQuakes
  apply List.filter_congr
  intro e _
  rw [Bool.eq_iff_iff, filter_test_iff, decide_eq_true_eq]

/-- C1: `filteredQuakes` is the sublist of the event list, in the original order, made
of exactly the events that satisfy the three predicates at once. -/
theorem filteredQuakes_eq_filter (toLowerCase : String → String)
    (earthquakes : List Feature) (minMag : ℚ) (region : Region) (query : String) :
    filteredQuakes toLowerCase earthquakes minMag region query =
        earthquakes.filter (fun e => decide (SatisfiesFilter toLowerCase minMag region query e)) ∧
      List.Sublist (filteredQuakes toLowerCase earthquakes minMag region query) earthquakes ∧
      ∀ e, e ∈ filteredQuakes toLowerCase earthquakes minMag region query ↔
        e ∈ earthquakes ∧ SatisfiesFilter toLowerCase minMag region query e := by
  have hfilter := filteredQuakes_filter_satisfies toLowerCase earthquakes minMag region query
  refine ⟨hfilter, ?_, fun e => ?_⟩
  · rw [hfilter]
    exact List.filter_sublist _
  · rw [hfilter, List.mem_filter, decide_eq_true_eq]

/-! ## The default filter -/

/-- The test of `filteredQuakes` with `minMag = 0`, region `global` and the empty query. -/
lemma satisfiesFilter_default_iff (toLowerCase : String → String) (e : Feature) :
    SatisfiesFilter toLowerCase 0 Region.global "" e ↔
      0 ≤ e.properties.mag ∧
        (-90 ≤ e.geometry.coordinates.2 ∧ e.geometry.coordinates.2 ≤ 90) ∧
        (-180 ≤ e.geometry.coordinates.1 ∧ e.geometry.coordinates.1 ≤ 180) := by
  simp [SatisfiesFilter, regionBounds]

/-- C2, counterexample: with `minMag = 0`, region `global` and the empty query, the
one-event list `[microQuake]` (magnitude `-0.5`) is not returned unchanged. -/
theorem filteredQuakes_default_counterexample :
    filteredQuakes asciiToLowerCase [microQuake] 0 Region.global "" = [] ∧
      filteredQuakes asciiToLowerCase [microQuake] 0 Region.global "" ≠ [microQuake] := by
  have hnot : ¬ SatisfiesFilter asciiToLowerCase 0 Region.global "" microQuake := by
    rw [satisfiesFilter_default_iff]
    norm_num [microQuake]
  have h : filteredQuakes asciiToLowerCase [microQuake] 0 Region.global "" = [] := by
    rw [filteredQuakes_filter_satisfies, List.filter_cons_of_neg (by simpa using hnot),
      List.filter_nil]
  exact ⟨h, by rw [h]; exact List.noConfusion⟩

/-- C2, amended: with `minMag = 0`, region `global` and the empty query, the event list
is returned unchanged exactly when every event has a magnitude of at least `0`, a
latitude in `[-90, 90]` and a longitude in `[-180, 180]`. -/
theorem filteredQuakes_default_eq_iff (toLowerCase : String → String)
    (earthquakes : List Feature) :
    filteredQuakes toLowerCase earthquakes 0 Region.global "" = earthquakes ↔
      ∀ e ∈ earthquakes, 0 ≤ e.properties.mag ∧
        (-90 ≤ e.geometry.coordinates.2 ∧ e.geometry.coordinates.2 ≤ 90) ∧
        (-180 ≤ e.geometry.coordinates.1 ∧ e.geometry.coordinates.1 ≤ 180) := by
  rw [filteredQuakes_filter_satisfies, List.filter_eq_self]
  constructor
  · intro h e he
    exact (satisfiesFilter_default_iff toLowerCase e).1 (of_decide_eq_true (h e he))
  · intro h e he
    exact decide_eq_true ((satisfiesFilter_default_iff toLowerCase e).2 (h e he))

/-- Witness for the amended C2: the two events of the scenario pass the default filter. -/
theorem filteredQuakes_default_eq_iff_witness :
    filteredQuakes asciiToLowerCase [tokyoQuake, limaQuake] 0 Region.global "" =
      [tokyoQuake, limaQuake] :=
  (filteredQuakes_default_eq_iff asciiToLowerCase [tokyoQuake, limaQuake]).2 (by
    intro e he
    simp only [List.mem_cons, List.mem_singleton, List.not_mem_nil, or_false] at he
    rcases he with rfl | rfl <;> norm_num [tokyoQuake, limaQuake])

/-! ## Suggestions -/

/-- C8, counterexample: for the index `["Lima,Peru"]` and the partial `" "` (one space),
`getSuggestions` returns the whole index although no lowercased place contains the
lowercased partial. -/
theorem getSuggestions_counterexample :
    getSuggestions asciiToLowerCase ["Lima,Peru"] " " = ["Lima,Peru"] ∧
      ["Lima,Peru"].filter
        (fun name => includes (asciiToLowerCase name) (asciiToLowerCase " ")) = [] ∧
      getSuggestions asciiToLowerCase ["Lima,Peru"] " " ≠
        ["Lima,Peru"].filter
          (fun name => includes (asciiToLowerCase name) (asciiToLowerCase " ")) := by
  decide

/-- C8, amended: `getSuggestions partial` returns, in index order, exactly the indexed
places whose lowercase form contains the lowercase form of the partial with the white
space at both its ends removed; for the empty partial that is the full index (the
lowercase form of the empty string being empty), and the partial `"tokyo"` matches
`"Tokyo,Japan"`. -/
theorem getSuggestions_eq_filter (toLowerCase : String → String) (index : List String)
    (value : String) :
    getSuggestions toLowerCase index value =
        index.filter
          (fun name => decide ((toLowerCase (trim value)).data <:+: (toLowerCase name).data)) ∧
      List.Sublist (getSuggestions toLowerCase index value) index ∧
      (toLowerCase "" = "" → getSuggestions toLowerCase index "" = index) ∧
      ("Tokyo,Japan" ∈ index → "Tokyo,Japan" ∈ getSuggestions asciiToLowerCase index "tokyo") := by
  have hfilter : ∀ (lower : String → String) (v : String), getSuggestions lower index v =
      index.filter (fun name => decide ((lower (trim v)).data <:+: (lower name).data)) := by
    intro lower v
    unfold getSuggestions
    apply List.filter_congr
    intro name _
    rw [Bool.eq_iff_iff, includes_iff, decide_eq_true_eq]
  refine ⟨hfilter _ _, ?_, fun h0 => ?_, fun hmem => ?_⟩
  · rw [hfilter]
    exact List.filter_sublist _
  · rw [hfilter, List.filter_eq_self]
    intro name _
    have htrim : trim "" = "" := by decide
    rw [htrim, h0]
    exact decide_eq_true List.nil_infix
  · rw [hfilter, List.mem_filter]
    exact ⟨hmem, by decide⟩

/-- Witness for the amended C8 on the index of the scenario. -/
theorem getSuggestions_eq_filter_witness :
    getSuggestions asciiToLowerCase ["Tokyo,Japan", "Lima,Peru"] "" =
        ["Tokyo,Japan", "Lima,Peru"] ∧
      "Tokyo,Japan" ∈ getSuggestions asciiToLowerCase ["Tokyo,Japan", "Lima,Peru"] "tokyo" :=
  ⟨(getSuggestions_eq_filter asciiToLowerCase ["Tokyo,Japan", "Lima,Peru"] "").2.2.1
      (by decide),
    (getSuggestions_eq_filter asciiToLowerCase ["Tokyo,Japan", "Lima,Peru"] "").2.2.2
      (by decide)⟩

/-! ## Selecting a suggestion -/

/-- The method `find` returns the first element that passes the test. -/
lemma find?_first_match {α : Type} (p : α → Bool) (pre : List α) (m : α) (post : List α)
    (hpre : ∀ e ∈ pre, p e = false) (hm : p m = true) :
    (pre ++ m :: post).find? p = some m := by
  induction pre with
  | nil => simp [hm]
  | cons a pre ih =>
    have ha : p a = false := hpre a (List.mem_cons_self a pre)
    rw [List.cons_append, List.find?_cons_of_neg _ (by simp [ha])]
    exact ih fun e he => hpre e (List.mem_cons_of_mem a he)

/-- C9: `onSuggestionSelected` never changes the event list; when `m` is the first
event in list order whose place equals the suggestion, the selected coordinates become
the pair (latitude, longitude) of `m` and nothing else changes; when no event has that
place, the whole state (the selected coordinates included) is unchanged. -/
theorem onSuggestionSelected_spec (st : AppState) (suggestion : String) :
    (onSuggestionSelected st suggestion).earthquakes = st.earthquakes ∧
      (∀ (pre : List Feature) (m : Feature) (post : List Feature),
        st.earthquakes = pre ++ m :: post →
        (∀ e ∈ pre, e.properties.place ≠ suggestion) →
        m.properties.place = suggestion →
        onSuggestionSelected st suggestion =
          { st with
            selectedCoords := some (m.geometry.coordinates.2, m.geometry.coordinates.1) }) ∧
      ((∀ e ∈ st.earthquakes, e.properties.place ≠ suggestion) →
        onSuggestionSelected st suggestion = st) := by
  refine ⟨?_, ?_, ?_⟩
  · unfold onSuggestionSelected
    split <;> rfl
  · intro pre m post hsplit hpre hm
    have hfind : st.earthquakes.find? (fun eq => eq.properties.place == suggestion) =
        some m := by
      rw [hsplit]
      exact find?_first_match _ pre m post (fun e he => by simpa using hpre e he)
        (by simpa using hm)
    unfold onSuggestionSelected
    rw [hfind]
  · intro hnone
    have hfind : st.earthquakes.find? (fun eq => eq.properties.place == suggestion) =
        none := by
      rw [List.find?_eq_none]
      intro e he
      simpa using hnone e he
    unfold onSuggestionSelected
    rw [hfind]

/-- Witness for C9: selecting `"Lima,Peru"` resolves to the first Lima event, and
selecting `"lima,peru"` (another case) changes nothing. -/
theorem onSuggestionSelected_spec_witness :
    onSuggestionSelected loadedState "Lima,Peru" =
        { loadedState with
          selectedCoords :=
            some (limaQuake.geometry.coordinates.2, limaQuake.geometry.coordinates.1) } ∧
      onSuggestionSelected loadedState "lima,peru" = loadedState :=
  ⟨(onSuggestionSelected_spec loadedState "Lima,Peru").2.1 [tokyoQuake] limaQuake
      [limaAftershock] rfl (by decide) rfl,
    (onSuggestionSelected_spec loadedState "lima,peru").2.2 (by decide)⟩

/-! ## The place index -/

/-- Adding the values of `xs` to a set with elements `acc` appends the first
occurrences of the values that are new. -/
lemma foldl_setAdd (xs : List String) : ∀ acc : List String,
    xs.foldl setAdd acc = acc ++ (firstOccurrences xs).filter (fun y => decide (y ∉ acc)) := by
  induction xs with
  | nil => intro acc; simp [firstOccurrences]
  | cons x xs ih =>
    intro acc
    rw [List.foldl_cons, ih, firstOccurrences]
    by_cases hx : x ∈ acc
    · have h1 : setAdd acc x = acc := by simp [setAdd, hx]
      rw [h1, List.filter_cons_of_neg (by simpa using hx), List.filter_filter]
      congr 1
      apply List.filter_congr
      intro y _
      by_cases hy : y ∈ acc
      · simp [hy]
      · have : y ≠ x := fun h => hy (h ▸ hx)
        simp [hy, this]
    · have h1 : setAdd acc x = acc ++ [x] := by simp [setAdd, hx]
      rw [h1, List.filter_cons_of_pos (by simpa using hx), List.filter_filter,
        List.append_assoc, List.singleton_append]
      congr 2
      apply List.filter_congr
      intro y _
      simp [not_or]

/-- The expression `[...new Set(values)]` lists the first occurrences. -/
lemma newSet_eq_firstOccurrences (xs : List String) : newSet xs = firstOccurrences xs := by
  simp [newSet, foldl_setAdd]

lemma mem_firstOccurrences (xs : List String) (a : String) :
    a ∈ firstOccurrences xs ↔ a ∈ xs := by
  induction xs with
  | nil => simp [firstOccurrences]
  | cons x xs ih =>
    simp only [firstOccurrences, List.mem_cons, List.mem_filter, ih, decide_eq_true_eq]
    by_cases h : a = x <;> simp [h]

lemma nodup_firstOccurrences (xs : List String) : (firstOccurrences xs).Nodup := by
  induction xs with
  | nil => simp [firstOccurrences]
  | cons x xs ih =>
    simp only [firstOccurrences, List.nodup_cons, List.mem_filter, decide_eq_true_eq]
    exact ⟨fun h => h.2 rfl, ih.filter _⟩

/-- Filtering keeps the relative order of the kept values. -/
lemma indexOf_filter_lt_iff (p : String → Bool) (a b : String) (ha : p a = true)
    (hb : p b = true) (l : List String) :
    (l.filter p).indexOf a < (l.filter p).indexOf b ↔ l.indexOf a < l.indexOf b := by
  induction l with
  | nil => simp
  | cons y l ih =>
    by_cases hy : p y = true
    · rw [List.filter_cons_of_pos hy]
      by_cases hay : y = a
      · subst hay
        by_cases hby : y = b
        · subst hby; simp
        · simp [List.indexOf_cons_ne _ hby]
      · by_cases hby : y = b
        · subst hby; simp
        · simp [List.indexOf_cons_ne _ hby, List.indexOf_cons_ne _ hay, ih]
    · have hay : y ≠ a := fun h => hy (h ▸ ha)
      have hby : y ≠ b := fun h => hy (h ▸ hb)
      rw [List.filter_cons_of_neg hy]
      simp [List.indexOf_cons_ne _ hby, List.indexOf_cons_ne _ hay, ih]

lemma indexOf_firstOccurrences_lt_iff (a b : String) (xs : List String) :
    (firstOccurrences xs).indexOf a < (firstOccurrences xs).indexOf b ↔
      xs.indexOf a < xs.indexOf b := by
  induction xs with
  | nil => simp [firstOccurrences]
  | cons x xs ih =>
    rw [firstOccurrences]
    by_cases hax : x = a
    · subst hax
      by_cases hbx : x = b
      · subst hbx; simp
      · simp [List.indexOf_cons_ne _ hbx]
    · by_cases hbx : x = b
      · subst hbx; simp
      · have ha : (fun y => decide (y ≠ x)) a = true := by simpa using fun h => hax h.symm
        have hb : (fun y => decide (y ≠ x)) b = true := by simpa using fun h => hbx h.symm
        simp only [List.indexOf_cons_ne _ hbx, List.indexOf_cons_ne _ hax, Nat.succ_lt_succ_iff]
        rw [indexOf_filter_lt_iff _ a b ha hb, ih]

/-- C10: `placeNames` has no duplicate, contains a string exactly when it is the place of
some event of the list, and lists the places in the order of their first occurrence:
one place comes before another in `placeNames` exactly when its first occurrence among
the places of the events comes before the first occurrence of the other. -/
theorem placeNames_spec (earthquakes : List Feature) :
    (placeNames earthquakes).Nodup ∧
      (∀ s, s ∈ placeNames earthquakes ↔ ∃ e ∈ earthquakes, e.properties.place = s) ∧
      (∀ a b, (placeNames earthquakes).indexOf a < (placeNames earthquakes).indexOf b ↔
        (earthquakes.map fun eq => eq.properties.place).indexOf a <
          (earthquakes.map fun eq => eq.properties.place).indexOf b) := by
  unfold placeNames
  rw [newSet_eq_firstOccurrences]
  refine ⟨nodup_firstOccurrences _, fun s => ?_, fun a b => indexOf_firstOccurrences_lt_iff a b _⟩
  rw [mem_firstOccurrences, List.mem_map]

/-! ## Summary of the empty list -/

/-- C5: when the filtered list is empty, `totalQuakes` is `0` and `avgMag` is the
number `0` (the branch that divides is not taken). -/
theorem avgMag_of_empty (numberToString : ℚ → String) (quakes : List Feature)
    (h : quakes = []) :
    totalQuakes quakes = 0 ∧ avgMag numberToString quakes = JSValue.number 0 := by
  subst h
  exact ⟨rfl, by simp [avgMag, totalQuakes]⟩

/-- Witness for C5: no event of the list `[tokyoQuake]` has magnitude `6` or more. -/
theorem avgMag_of_empty_witness :
    filteredQuakes asciiToLowerCase [tokyoQuake] 6 Region.global "" = [] ∧
      totalQuakes (filteredQuakes asciiToLowerCase [tokyoQuake] 6 Region.global "") = 0 ∧
      avgMag (fun _ => "") (filteredQuakes asciiToLowerCase [tokyoQuake] 6 Region.global "")
        = JSValue.number 0 :=
  have h : filteredQuakes asciiToLowerCase [tokyoQuake] 6 Region.global "" = [] := by
    simp [filteredQuakes, tokyoQuake]
    norm_num
  ⟨h, avgMag_of_empty (fun _ => "") _ h⟩

/-! ## Decimal numerals of `toFixed` -/

lemma digitChar_isDigit (d : ℕ) (h : d < 10) :
    (Nat.digitChar d).isDigit = true ∧ digitValue (Nat.digitChar d) = d := by
  interval_cases d <;> exact ⟨rfl, rfl⟩

lemma digitsNumber_append (a b : List Char) :
    digitsNumber (a ++ b) = digitsNumber a * 10 ^ b.length + digitsNumber b := by
  induction b using List.reverseRecOn with
  | nil => simp [digitsNumber]
  | append_singleton b c ih =>
    have hstep : ∀ l : List Char, digitsNumber (l ++ [c]) = 10 * digitsNumber l + digitValue c := by
      intro l; simp [digitsNumber, List.foldl_append]
    rw [← List.append_assoc, hstep, hstep, ih, List.length_append, List.length_singleton,
      pow_succ]
    ring

lemma digitsNumber_digits (l : List ℕ) (hl : ∀ d ∈ l, d < 10) :
    digitsNumber ((l.map Nat.digitChar).reverse) = Nat.ofDigits 10 l := by
  induction l with
  | nil => simp [digitsNumber]
  | cons d l ih =>
    rw [List.map_cons, List.reverse_cons, digitsNumber_append,
      ih fun e he => hl e (List.mem_cons_of_mem d he), Nat.ofDigits_cons]
    simp [digitsNumber, (digitChar_isDigit d (hl d (List.mem_cons_self d l))).2]
    ring

lemma decimalDigits_spec (n : ℕ) :
    digitsNumber (decimalDigits n) = n ∧ (∀ c ∈ decimalDigits n, c.isDigit = true) ∧
      decimalDigits n ≠ [] := by
  unfold decimalDigits
  split_ifs with h0
  · subst h0
    refine ⟨rfl, ?_, by simp⟩
    intro c hc
    simp only [List.mem_singleton] at hc
    subst hc
    rfl
  · have hlt : ∀ d ∈ Nat.digits 10 n, d < 10 := fun d hd => Nat.digits_lt_base (by norm_num) hd
    refine ⟨?_, ?_, ?_⟩
    · rw [digitsNumber_digits _ hlt, Nat.ofDigits_digits]
    · intro c hc
      simp only [List.mem_reverse, List.mem_map] at hc
      obtain ⟨d, hd, rfl⟩ := hc
      exact (digitChar_isDigit d (hlt d hd)).1
    · simp [Nat.digits_eq_nil_iff_eq_zero, h0]

lemma digitsNumber_replicate_zero (j : ℕ) : digitsNumber (List.replicate j '0') = 0 := by
  induction j with
  | zero => rfl
  | succ j ih =>
    rw [List.replicate_succ', digitsNumber_append, ih]
    rfl

/-- Shape of `toFixed 2` below `10^21`: a sign, at least one digit, a point and two
digits; the digits write the integer nearest to `|x| * 100` (the larger on a tie). -/
lemma toFixed_two_shape (numberToString : ℚ → String) (x : ℚ) (h : |x| < 10 ^ 21) :
    ∃ a b : List Char, toFixed numberToString x 2 =
        (if x < 0 then "-" else "") ++ String.mk (a ++ '.' :: b) ∧
      a ≠ [] ∧ b.length = 2 ∧ (∀ c ∈ a ++ b, c.isDigit = true) ∧
      digitsNumber (a ++ b) = ⌊|x| * 10 ^ 2 + 1 / 2⌋.toNat := by
  have habs : (if x < 0 then -x else x) = |x| := by
    split_ifs with hx
    · exact (abs_of_neg hx).symm
    · exact (abs_of_nonneg (not_lt.mp hx)).symm
  obtain ⟨hnum, hdig, hne⟩ := decimalDigits_spec ⌊|x| * 10 ^ 2 + 1 / 2⌋.toNat
  generalize hm : decimalDigits ⌊|x| * 10 ^ 2 + 1 / 2⌋.toNat = m at hnum hdig hne
  have hlen : 0 < m.length := List.length_pos.mpr hne
  set m' := if m.length ≤ 2 then List.replicate (2 + 1 - m.length) '0' ++ m else m with hm'
  have hlen' : 3 ≤ m'.length := by
    rw [hm']
    split_ifs with hle
    · simp only [List.length_append, List.length_replicate]; omega
    · omega
  have hdig' : ∀ c ∈ m', c.isDigit = true := by
    rw [hm']
    split_ifs with hle
    · intro c hc
      rcases List.mem_append.mp hc with hc | hc
      · rw [(List.mem_replicate.mp hc).2]; rfl
      · exact hdig c hc
    · exact hdig
  have hnum' : digitsNumber m' = ⌊|x| * 10 ^ 2 + 1 / 2⌋.toNat := by
    rw [hm']
    split_ifs with hle
    · rw [digitsNumber_append, digitsNumber_replicate_zero, hnum]; simp
    · exact hnum
  refine ⟨m'.take (m'.length - 2), m'.drop (m'.length - 2), ?_, ?_, ?_, ?_, ?_⟩
  · simp only [toFixed, habs, ge_iff_le, not_le.mpr h, if_false, ne_eq, OfNat.ofNat_ne_zero,
      not_false_eq_true, if_true, hm, ← hm']
  · intro hnil
    have := congrArg List.length hnil
    simp only [List.length_take, List.length_nil] at this
    omega
  · simp only [List.length_drop]; omega
  · rw [List.take_append_drop]; exact hdig'
  · rw [List.take_append_drop]; exact hnum'

/-- The value of a numeral `digits.digits`. -/
lemma unsignedDecimalValue_point (a b : List Char) (ha : a ≠ []) (hb : b ≠ [])
    (hdig : ∀ c ∈ a ++ b, c.isDigit = true) :
    unsignedDecimalValue (a ++ '.' :: b) =
      some ((digitsNumber (a ++ b) : ℚ) / 10 ^ b.length) := by
  have hda : ∀ c ∈ a, c.isDigit = true := fun c hc => hdig c (List.mem_append_left b hc)
  have hdb : ∀ c ∈ b, c.isDigit = true := fun c hc => hdig c (List.mem_append_right a hc)
  have hpoint : ∀ l : List Char, (∀ c ∈ l, c.isDigit = true) →
      (l ++ '.' :: b).dropWhile (fun c => c != '.') = '.' :: b ∧
        (l ++ '.' :: b).takeWhile (fun c => c != '.') = l := by
    intro l
    induction l with
    | nil => intro _; simp [List.dropWhile, List.takeWhile]
    | cons c l ih =>
      intro hl
      have hc : (c != '.') = true := by
        have hcd := hl c (List.mem_cons_self c l)
        rw [bne_iff_ne]
        rintro rfl
        exact absurd hcd (by decide)
      obtain ⟨h1, h2⟩ := ih fun e he => hl e (List.mem_cons_of_mem c he)
      simp [List.dropWhile, List.takeWhile, hc, h1, h2]
  obtain ⟨h1, h2⟩ := hpoint a hda
  have hva : digitsValue a = some (digitsNumber a) := by
    simp [digitsValue, ha]
    exact hda
  have hvb : digitsValue b = some (digitsNumber b) := by
    simp [digitsValue, hb]
    exact hdb
  simp only [unsignedDecimalValue, h1, h2, hva, hvb, digitsNumber_append]
  congr 1
  push_cast
  field_simp

/-- Below `10^21`, the string `x.toFixed(2)` denotes `x` rounded to 2 decimal digits. -/
lemma decimalValue_toFixed_two (numberToString : ℚ → String) (x : ℚ) (h : |x| < 10 ^ 21) :
    decimalValue (toFixed numberToString x 2) = some (roundTo2 x) := by
  obtain ⟨a, b, hs, ha, hb, hdig, hnum⟩ := toFixed_two_shape numberToString x h
  have hbne : b ≠ [] := by
    intro hnil
    rw [hnil] at hb
    simp at hb
  have hval := unsignedDecimalValue_point a b ha hbne hdig
  have hfloor : (0 : ℤ) ≤ ⌊|x| * 10 ^ 2 + 1 / 2⌋ :=
    Int.floor_nonneg.mpr (by positivity)
  have hcast : ((⌊|x| * 10 ^ 2 + 1 / 2⌋.toNat : ℕ) : ℚ) = (⌊|x| * 10 ^ 2 + 1 / 2⌋ : ℚ) := by
    have := Int.toNat_of_nonneg hfloor
    exact_mod_cast this
  rw [hnum, hb, hcast] at hval
  rw [hs]
  by_cases hx : x < 0
  · have hparse : decimalValue ((if x < 0 then "-" else "") ++ String.mk (a ++ '.' :: b)) =
        (unsignedDecimalValue (a ++ '.' :: b)).map fun q => -q := by
      rw [if_pos hx]
      have hdata : ("-" ++ String.mk (a ++ '.' :: b)).data = '-' :: (a ++ '.' :: b) := rfl
      unfold decimalValue
      rw [hdata]
      simp only [if_true]
    rw [abs_of_neg hx] at hval
    rw [hparse, hval, roundTo2, if_pos hx, round_eq, Option.map_some']
    norm_num
  · obtain ⟨c, a', rfl⟩ := List.exists_cons_of_ne_nil ha
    have hc : c ≠ '-' := by
      have hcd := hdig c (by simp)
      rintro rfl
      exact absurd hcd (by decide)
    have hparse : decimalValue
        ((if x < 0 then "-" else "") ++ String.mk (c :: a' ++ '.' :: b)) =
        unsignedDecimalValue (c :: a' ++ '.' :: b) := by
      rw [if_neg hx]
      exact if_neg hc
    rw [abs_of_nonneg (not_lt.mp hx)] at hval
    rw [hparse, hval, roundTo2, if_neg hx, round_eq]
    norm_num

/-- Rounding to 2 decimal digits moves a number by at most half a hundredth. -/
lemma abs_roundTo2_sub_le (x : ℚ) : |roundTo2 x - x| ≤ 1 / 200 := by
  have key : ∀ y : ℚ, |(round (y * 100) : ℚ) / 100 - y| ≤ 1 / 200 := by
    intro y
    have h := abs_sub_round (y * 100)
    have h2 : (round (y * 100) : ℚ) / 100 - y = -(y * 100 - round (y * 100)) / 100 := by ring
    rw [h2, abs_div, abs_neg]
    have h3 : |(100 : ℚ)| = 100 := abs_of_pos (by norm_num)
    rw [h3, div_le_iff₀ (by norm_num)]
    linarith
  unfold roundTo2
  split_ifs with hx
  · have h1 := key (-x)
    have h2 : -((round (-x * 100) : ℚ) / 100) - x = -((round (-x * 100) : ℚ) / 100 - -x) := by
      ring
    rw [h2, abs_neg]
    exact h1
  · exact key x

/-! ## Double arithmetic -/

/-- The integer `roundHalfEven y` is within one half of `y`. -/
lemma abs_roundHalfEven_sub_le (y : ℚ) : |(roundHalfEven y : ℚ) - y| ≤ 1 / 2 := by
  unfold roundHalfEven
  have h1 := Int.floor_le y
  have h2 := Int.lt_floor_add_one y
  split_ifs with ha hb hc
  · rw [abs_le]; constructor <;> linarith
  · push_cast; rw [abs_le]; constructor <;> linarith
  · rw [abs_le]; constructor <;> linarith
  · have := not_lt.mp hb
    push_cast; rw [abs_le]; constructor <;> linarith

/-- An integer at less than one half of `y` is `roundHalfEven y`. -/
lemma roundHalfEven_of_abs_sub_lt (y : ℚ) (n : ℤ) (h : |y - n| < 1 / 2) :
    roundHalfEven y = n := by
  rw [abs_lt] at h
  unfold roundHalfEven
  by_cases hn : (n : ℚ) ≤ y
  · have hf : ⌊y⌋ = n := by
      rw [Int.floor_eq_iff]; constructor <;> linarith
    rw [hf, if_pos (by linarith)]
  · have hf : ⌊y⌋ = n - 1 := by
      rw [Int.floor_eq_iff]; push_cast; constructor <;> linarith
    rw [hf]
    push_cast
    rw [if_neg (by linarith), if_pos (by linarith)]
    ring

/-- Half-way between an even integer and the next, `roundHalfEven` gives the even one. -/
lemma roundHalfEven_tie (n : ℤ) (hn : n % 2 = 0) : roundHalfEven (n + 1 / 2) = n := by
  have hf : ⌊(n : ℚ) + 1 / 2⌋ = n := by
    rw [Int.floor_eq_iff]; constructor <;> linarith
  unfold roundHalfEven
  rw [hf, if_neg (by linarith), if_neg (by linarith), if_pos hn]

/-- The binary exponent of a positive number. -/
lemma log_two_eq (x : ℚ) (k : ℤ) (hlo : (2 : ℚ) ^ k ≤ x) (hhi : x < 2 ^ (k + 1)) :
    Int.log 2 x = k := by
  have hx : 0 < x := lt_of_lt_of_le (by positivity) hlo
  have h1 : k ≤ Int.log 2 x :=
    (Int.zpow_le_iff_le_log (by norm_num) hx).1 (by exact_mod_cast hlo)
  have h2 : Int.log 2 x < k + 1 :=
    (Int.lt_zpow_iff_log_lt (by norm_num) hx).1 (by exact_mod_cast hhi)
  omega

/-- Evaluation of `roundToDouble` from the binary exponent `k` of `x` and the integer `n`
that `x / 2^(k-52)` rounds to. -/
lemma roundToDouble_eval (x : ℚ) (k n : ℤ) (hk : -1022 ≤ k) (hlo : (2 : ℚ) ^ k ≤ |x|)
    (hhi : |x| < 2 ^ (k + 1)) (hn : roundHalfEven (x / 2 ^ (k - 52)) = n)
    (hfin : |(n : ℚ) * 2 ^ (k - 52)| < 2 ^ 1024) :
    roundToDouble x = JSNumber.finite (n * 2 ^ (k - 52)) := by
  have hlog := log_two_eq |x| k hlo hhi
  unfold roundToDouble
  simp only [hlog, max_eq_left hk, hn, if_neg (not_le.mpr hfin)]

/-- A finite result of `roundToDouble` differs from the exact value `y` by at most
`|y| / 2^53 + 1 / 2^1075`. -/
lemma roundToDouble_error (y r : ℚ) (h : roundToDouble y = JSNumber.finite r) :
    |r - y| ≤ |y| / 2 ^ 53 + 1 / 2 ^ 1075 := by
  by_cases hy : y = 0
  · subst hy
    have h0 : roundHalfEven 0 = 0 := roundHalfEven_of_abs_sub_lt 0 0 (by norm_num)
    unfold roundToDouble at h
    simp only [zero_div, h0, Int.cast_zero, zero_mul, abs_zero] at h
    rw [if_neg (by norm_num)] at h
    injection h with h
    rw [← h]
    norm_num
  · have hpos : 0 < |y| := abs_pos.mpr hy
    have hq : ∀ e : ℤ, (0 : ℚ) < 2 ^ (e - 52) := fun e => by positivity
    have hr : r = roundHalfEven (y / 2 ^ (max (Int.log 2 |y|) (-1022) - 52)) *
        2 ^ (max (Int.log 2 |y|) (-1022) - 52) := by
      unfold roundToDouble at h
      simp only at h
      split_ifs at h
      injection h with h
      exact h.symm
    set e := max (Int.log 2 |y|) (-1022) with he
    have hdiff : |r - y| ≤ 2 ^ (e - 52) / 2 := by
      have hround := abs_roundHalfEven_sub_le (y / 2 ^ (e - 52))
      have heq : r - y = ((roundHalfEven (y / 2 ^ (e - 52)) : ℚ) - y / 2 ^ (e - 52)) *
          2 ^ (e - 52) := by
        rw [hr]
        field_simp
      rw [heq, abs_mul, abs_of_pos (hq e)]
      calc |((roundHalfEven (y / 2 ^ (e - 52)) : ℚ) - y / 2 ^ (e - 52))| * 2 ^ (e - 52)
          ≤ 1 / 2 * 2 ^ (e - 52) := mul_le_mul_of_nonneg_right hround (le_of_lt (hq e))
        _ = 2 ^ (e - 52) / 2 := by ring
    have hquantum : (2 : ℚ) ^ (e - 52) / 2 ≤ |y| / 2 ^ 53 + 1 / 2 ^ 1075 := by
      rcases le_total (-1022) (Int.log 2 |y|) with hlog | hlog
      · have hE : e = Int.log 2 |y| := max_eq_left hlog
        have hle : (2 : ℚ) ^ e ≤ |y| := by
          rw [hE]
          exact_mod_cast Int.zpow_log_le_self (by norm_num) hpos
        have hsplit : (2 : ℚ) ^ (e - 52) / 2 = 2 ^ e / 2 ^ 53 := by
          rw [zpow_sub₀ (by norm_num : (2 : ℚ) ≠ 0)]
          norm_num
          ring
        rw [hsplit]
        have h1 : (2 : ℚ) ^ e / 2 ^ 53 ≤ |y| / 2 ^ 53 :=
          div_le_div_of_nonneg_right hle (by positivity)
        have h2 : (0 : ℚ) ≤ 1 / 2 ^ 1075 := by positivity
        linarith
      · have hE : e = -1022 := max_eq_right hlog
        rw [hE]
        have h1 : (2 : ℚ) ^ ((-1022 : ℤ) - 52) / 2 = 1 / 2 ^ 1075 := by norm_num
        rw [h1]
        have h2 : (0 : ℚ) ≤ |y| / 2 ^ 53 := by positivity
        linarith
    exact le_trans hdiff hquantum

/-! ## The mean in double arithmetic -/

/-- One more event is one more addition. -/
lemma sumOfMags_append_singleton (quakes : List Feature) (e : Feature) :
    sumOfMags (quakes ++ [e]) = jsAdd (sumOfMags quakes) (JSNumber.finite e.properties.mag) := by
  simp [sumOfMags, List.foldl_append]

/-- A finite sum comes from a finite left operand. -/
lemma jsAdd_eq_finite (a : JSNumber) (m s : ℚ)
    (h : jsAdd a (JSNumber.finite m) = JSNumber.finite s) :
    ∃ a' : ℚ, a = JSNumber.finite a' ∧ roundToDouble (a' + m) = JSNumber.finite s := by
  cases a with
  | finite a' => exact ⟨a', rfl, h⟩
  | posInf => simp [jsAdd] at h
  | negInf => simp [jsAdd] at h
  | nan => simp [jsAdd] at h

/-- A finite quotient comes from a finite dividend. -/
lemma jsDivByCount_eq_finite (a : JSNumber) (n : ℕ) (x : ℚ)
    (h : jsDivByCount a n = JSNumber.finite x) :
    ∃ a' : ℚ, a = JSNumber.finite a' ∧ roundToDouble (a' / n) = JSNumber.finite x := by
  cases a with
  | finite a' => exact ⟨a', rfl, h⟩
  | posInf => simp [jsDivByCount] at h
  | negInf => simp [jsDivByCount] at h
  | nan => simp [jsDivByCount] at h

/-- The absolute value of a sum is at most the sum of the absolute values. -/
lemma abs_sum_mags_le (quakes : List Feature) :
    |(quakes.map fun eq => eq.properties.mag).sum| ≤
      (quakes.map fun eq => |eq.properties.mag|).sum := by
  induction quakes with
  | nil => simp
  | cons e quakes ih =>
    simp only [List.map_cons, List.sum_cons]
    exact le_trans (abs_add _ _) (by linarith)

/-- A sum of absolute values is not negative. -/
lemma sum_abs_mags_nonneg (quakes : List Feature) :
    0 ≤ (quakes.map fun eq => |eq.properties.mag|).sum := by
  induction quakes with
  | nil => simp
  | cons e quakes ih =>
    simp only [List.map_cons, List.sum_cons]
    have := abs_nonneg e.properties.mag
    linarith

/-- Accumulation of the rounding error over one addition. -/
lemma error_step (u c A E T m d : ℚ) (hu : 0 ≤ u) (hA : 1 ≤ A) (hm : 0 ≤ m)
    (hE : E ≤ (A - 1) * (T + c)) (hd : d ≤ u * (E + T + m) + u * c) :
    d + E ≤ ((1 + u) * A - 1) * (T + m + c) := by
  have h1 : (1 + u) * E ≤ (1 + u) * ((A - 1) * (T + c)) :=
    mul_le_mul_of_nonneg_left hE (by linarith)
  have h2 : (A - 1) * (T + c) ≤ (A - 1) * (T + m + c) :=
    mul_le_mul_of_nonneg_left (by linarith) (by linarith)
  have h3 : (1 + u) * ((A - 1) * (T + c)) ≤ (1 + u) * ((A - 1) * (T + m + c)) :=
    mul_le_mul_of_nonneg_left h2 (by linarith)
  have h4 : ((1 + u) * A - 1) * (T + m + c) =
      (1 + u) * ((A - 1) * (T + m + c)) + u * (T + m + c) := by ring
  have h5 : u * (E + T + m) + u * c + E = (1 + u) * E + u * (T + m + c) := by ring
  linarith

/-- A finite sum of `reduce` differs from the exact sum `S` of the `n` magnitudes by at
most `((1 + 2^(-53))^n - 1) * (T + 2^(-1022))`, where `T` is the sum of their absolute
values. -/
lemma sumOfMags_error (quakes : List Feature) : ∀ s : ℚ, sumOfMags quakes = JSNumber.finite s →
    |s - (quakes.map fun eq => eq.properties.mag).sum| ≤
      ((1 + 1 / 2 ^ 53) ^ quakes.length - 1) *
        ((quakes.map fun eq => |eq.properties.mag|).sum + 1 / 2 ^ 1022) := by
  induction quakes using List.reverseRecOn with
  | nil =>
    intro s hs
    have : s = 0 := by
      simp only [sumOfMags, List.foldl_nil] at hs
      injection hs with hs
      exact hs.symm
    subst this
    simp only [List.map_nil, List.sum_nil, List.length_nil, pow_zero, sub_self, zero_mul,
      abs_zero, le_refl]
  | append_singleton quakes e ih =>
    intro s' hs'
    rw [sumOfMags_append_singleton] at hs'
    obtain ⟨s, hs, hround⟩ := jsAdd_eq_finite _ _ _ hs'
    have hE := ih s hs
    have herr := roundToDouble_error _ _ hround
    have hS := abs_sum_mags_le quakes
    have hT := sum_abs_mags_nonneg quakes
    simp only [List.map_append, List.map_cons, List.map_nil, List.sum_append, List.sum_cons,
      List.sum_nil, add_zero, List.length_append, List.length_singleton]
    rw [pow_succ (1 + 1 / 2 ^ 53 : ℚ) quakes.length]
    set S := (quakes.map fun eq => eq.properties.mag).sum
    set T := (quakes.map fun eq => |eq.properties.mag|).sum
    set A : ℚ := (1 + 1 / 2 ^ 53) ^ quakes.length with hA
    have hA1 : 1 ≤ A := one_le_pow₀ (by norm_num)
    have hsm : |s + e.properties.mag| ≤ |s - S| + T + |e.properties.mag| := by
      have h1 : s + e.properties.mag = (s - S) + S + e.properties.mag := by ring
      rw [h1]
      exact le_trans (abs_add _ _) (by linarith [abs_add (s - S) S])
    have hd : |s' - (s + e.properties.mag)| ≤
        (1 / 2 ^ 53) * (|s - S| + T + |e.properties.mag|) + (1 / 2 ^ 53) * (1 / 2 ^ 1022) := by
      have h2 : (1 : ℚ) / 2 ^ 1075 = (1 / 2 ^ 53) * (1 / 2 ^ 1022) := by
        rw [show (1075 : ℕ) = 53 + 1022 by norm_num, pow_add]
        field_simp
      have h3 : |s + e.properties.mag| / 2 ^ 53 ≤
          (1 / 2 ^ 53) * (|s - S| + T + |e.properties.mag|) := by
        rw [div_eq_mul_one_div, mul_comm]
        exact mul_le_mul_of_nonneg_left hsm (by positivity)
      rw [h2] at herr
      linarith
    have hstep := error_step (1 / 2 ^ 53) (1 / 2 ^ 1022) A |s - S| T |e.properties.mag|
      |s' - (s + e.properties.mag)| (by positivity) hA1 (abs_nonneg _) hE hd
    have htri : |s' - (S + e.properties.mag)| ≤
        |s' - (s + e.properties.mag)| + |s - S| := by
      have h1 : s' - (S + e.properties.mag) = (s' - (s + e.properties.mag)) + (s - S) := by ring
      rw [h1]
      exact abs_add _ _
    have hfinal : ((1 + 1 / 2 ^ 53) * A - 1) * (T + |e.properties.mag| + 1 / 2 ^ 1022) =
        (A * (1 + 1 / 2 ^ 53) - 1) * (T + |e.properties.mag| + 1 / 2 ^ 1022) := by ring
    rw [← hfinal]
    exact le_trans htri hstep

/-- Accumulation of the rounding error over the division by the count `N`. -/
lemma error_div (u c A E T N d : ℚ) (hu : 0 ≤ u) (hc : 0 ≤ c) (hA : 1 ≤ A) (hN : 1 ≤ N)
    (hE : E ≤ (A - 1) * (T + c)) (hd : d ≤ u * ((E + T) / N) + u * c) :
    d + E / N ≤ ((1 + u) * A - 1) * (T / N + c) := by
  have hN0 : 0 < N := by linarith
  have hcN : c / N ≤ c := div_le_self hc hN
  have h1 : E / N ≤ (A - 1) * (T + c) / N := div_le_div_of_nonneg_right hE (le_of_lt hN0)
  have h2 : (A - 1) * (T + c) / N = (A - 1) * (T / N + c / N) := by ring
  have h3 : (A - 1) * (T / N + c / N) ≤ (A - 1) * (T / N + c) :=
    mul_le_mul_of_nonneg_left (by linarith) (by linarith)
  have h4 : (1 + u) * (E / N) ≤ (1 + u) * ((A - 1) * (T / N + c)) :=
    mul_le_mul_of_nonneg_left (by linarith) (by linarith)
  have h5 : u * ((E + T) / N) + u * c + E / N = (1 + u) * (E / N) + u * (T / N + c) := by ring
  have h6 : ((1 + u) * A - 1) * (T / N + c) =
      (1 + u) * ((A - 1) * (T / N + c)) + u * (T / N + c) := by ring
  linarith

/-- A finite value of `avgMagNumber` differs from the arithmetic mean of the `n`
magnitudes by at most `((1 + 2^(-53))^(n+1) - 1) * (M + 2^(-1022))`, where `M` is the
mean of their absolute values. -/
lemma avgMagNumber_error (quakes : List Feature) (hne : quakes ≠ []) (x : ℚ)
    (hx : avgMagNumber quakes = JSNumber.finite x) :
    |x - meanMagnitude quakes| ≤
      ((1 + 1 / 2 ^ 53) ^ (quakes.length + 1) - 1) *
        ((quakes.map fun eq => |eq.properties.mag|).sum / quakes.length + 1 / 2 ^ 1022) := by
  obtain ⟨s, hs, hround⟩ := jsDivByCount_eq_finite _ _ _ hx
  have hE := sumOfMags_error quakes s hs
  have herr := roundToDouble_error _ _ hround
  have hS := abs_sum_mags_le quakes
  have hlen : (1 : ℚ) ≤ (quakes.length : ℚ) := by
    have : 0 < quakes.length := List.length_pos.mpr hne
    exact_mod_cast this
  have hN0 : (0 : ℚ) < (quakes.length : ℚ) := by linarith
  rw [pow_succ (1 + 1 / 2 ^ 53 : ℚ) quakes.length]
  unfold meanMagnitude
  unfold totalQuakes at herr
  set S := (quakes.map fun eq => eq.properties.mag).sum
  set T := (quakes.map fun eq => |eq.properties.mag|).sum
  set A : ℚ := (1 + 1 / 2 ^ 53) ^ quakes.length with hA
  set N : ℚ := (quakes.length : ℚ) with hN
  have hA1 : 1 ≤ A := one_le_pow₀ (by norm_num)
  have hs_abs : |s| ≤ |s - S| + T := by
    have h1 : s = (s - S) + S := by ring
    calc |s| = |(s - S) + S| := by rw [← h1]
      _ ≤ |s - S| + |S| := abs_add _ _
      _ ≤ |s - S| + T := by linarith
  have hd : |x - s / N| ≤ (1 / 2 ^ 53) * ((|s - S| + T) / N) + (1 / 2 ^ 53) * (1 / 2 ^ 1022) := by
    have h2 : (1 : ℚ) / 2 ^ 1075 = (1 / 2 ^ 53) * (1 / 2 ^ 1022) := by
      rw [show (1075 : ℕ) = 53 + 1022 by norm_num, pow_add]
      field_simp
    have h3 : |s / N| / 2 ^ 53 ≤ (1 / 2 ^ 53) * ((|s - S| + T) / N) := by
      rw [abs_div, abs_of_pos hN0, div_eq_mul_one_div (|s| / N), mul_comm]
      exact mul_le_mul_of_nonneg_left (div_le_div_of_nonneg_right hs_abs (le_of_lt hN0))
        (by positivity)
    rw [h2] at herr
    linarith
  have hdiv := error_div (1 / 2 ^ 53) (1 / 2 ^ 1022) A |s - S| T N |x - s / N| (by positivity)
    (by positivity) hA1 hlen hE hd
  have htri : |x - S / N| ≤ |x - s / N| + |s - S| / N := by
    have h1 : x - S / N = (x - s / N) + (s - S) / N := by ring
    rw [h1]
    calc |(x - s / N) + (s - S) / N| ≤ |x - s / N| + |(s - S) / N| := abs_add _ _
      _ = |x - s / N| + |s - S| / N := by rw [abs_div, abs_of_pos hN0]
  have hfinal : ((1 + 1 / 2 ^ 53) * A - 1) * (T / N + 1 / 2 ^ 1022) =
      (A * (1 + 1 / 2 ^ 53) - 1) * (T / N + 1 / 2 ^ 1022) := by ring
  rw [← hfinal]
  exact le_trans htri hdiv

/-- The value of `avgMagNumber` on the one-event list `[limaQuake]` is the double nearest
to `6.8`. -/
lemma avgMagNumber_limaQuake :
    avgMagNumber [limaQuake] = JSNumber.finite (7656119366529843 / 2 ^ 50) := by
  have hsum : roundToDouble (0 + 34 / 5) = JSNumber.finite (7656119366529843 / 2 ^ 50) := by
    rw [roundToDouble_eval (0 + 34 / 5) 2 7656119366529843 (by norm_num)
      (by norm_num [abs_of_pos]) (by norm_num [abs_of_pos])
      (roundHalfEven_of_abs_sub_lt _ _ (by norm_num [abs_lt])) (by norm_num [abs_lt])]
    norm_num
  have hdiv : roundToDouble (7656119366529843 / 2 ^ 50 / ((1 : ℕ) : ℚ)) =
      JSNumber.finite (7656119366529843 / 2 ^ 50) := by
    rw [roundToDouble_eval (7656119366529843 / 2 ^ 50 / ((1 : ℕ) : ℚ)) 2 7656119366529843
      (by norm_num) (by norm_num [abs_of_pos]) (by norm_num [abs_of_pos])
      (roundHalfEven_of_abs_sub_lt _ _ (by norm_num [abs_lt])) (by norm_num [abs_lt])]
    norm_num
  have hmag : limaQuake.properties.mag = 34 / 5 := by norm_num [limaQuake]
  simp only [avgMagNumber, sumOfMags, totalQuakes, List.foldl_cons, List.foldl_nil, jsAdd,
    List.length_singleton, hmag, hsum, jsDivByCount, hdiv]

/-- The value of `avgMagNumber` on `[unitQuake, nearUnitQuake]`: the sum of the two
magnitudes lies half-way between two doubles and rounds to the even one. -/
lemma avgMagNumber_unit_pair :
    avgMagNumber [unitQuake, nearUnitQuake] = JSNumber.finite (4526117625507348 / 2 ^ 52) := by
  have hsum₁ : roundToDouble (0 + 1) = JSNumber.finite 1 := by
    rw [roundToDouble_eval (0 + 1) 0 (2 ^ 52) (by norm_num) (by norm_num) (by norm_num)
      (roundHalfEven_of_abs_sub_lt _ _ (by norm_num [abs_lt])) (by norm_num [abs_lt])]
    norm_num
  have hsum₂ : roundToDouble (1 + 4548635623644201 / 2 ^ 52) =
      JSNumber.finite (4526117625507348 / 2 ^ 51) := by
    have htie : (1 + 4548635623644201 / 2 ^ 52 : ℚ) / 2 ^ ((1 : ℤ) - 52) =
        ((4526117625507348 : ℤ) : ℚ) + 1 / 2 := by norm_num
    rw [roundToDouble_eval (1 + 4548635623644201 / 2 ^ 52) 1 4526117625507348 (by norm_num)
      (by norm_num [abs_of_pos]) (by norm_num [abs_of_pos])
      (by rw [htie]; exact roundHalfEven_tie _ (by norm_num)) (by norm_num [abs_lt])]
    norm_num
  have hdiv : roundToDouble (4526117625507348 / 2 ^ 51 / ((2 : ℕ) : ℚ)) =
      JSNumber.finite (4526117625507348 / 2 ^ 52) := by
    rw [roundToDouble_eval (4526117625507348 / 2 ^ 51 / ((2 : ℕ) : ℚ)) 0 4526117625507348
      (by norm_num) (by norm_num [abs_of_pos]) (by norm_num [abs_of_pos])
      (roundHalfEven_of_abs_sub_lt _ _ (by norm_num [abs_lt])) (by norm_num [abs_lt])]
    norm_num
  have hmag₁ : unitQuake.properties.mag = 1 := rfl
  have hmag₂ : nearUnitQuake.properties.mag = 4548635623644201 / 2 ^ 52 := rfl
  simp only [avgMagNumber, sumOfMags, totalQuakes, List.foldl_cons, List.foldl_nil, jsAdd,
    List.length_cons, List.length_singleton, List.length_nil, hmag₁, hmag₂, hsum₁, hsum₂,
    jsDivByCount]
  exact hdiv

/-- The string `toFixed(2)` of the double nearest to `6.8`. -/
lemma toFixed_lima (numberToString : ℚ → String) :
    toFixed numberToString (7656119366529843 / 2 ^ 50) 2 = "6.80" := by
  have hfloor : ⌊(7656119366529843 / 2 ^ 50 : ℚ) * 10 ^ 2 + 1 / 2⌋ = 680 := by
    rw [Int.floor_eq_iff]; norm_num
  have hnat : (680 : ℤ).toNat = 680 := rfl
  have hdigits : decimalDigits 680 = ['6', '8', '0'] := by
    norm_num [decimalDigits]
    decide
  have hneg : ¬ (7656119366529843 / 2 ^ 50 : ℚ) < 0 := by norm_num
  have hbig : ¬ (7656119366529843 / 2 ^ 50 : ℚ) ≥ 10 ^ 21 := by norm_num
  simp only [toFixed, if_neg hneg, if_neg hbig, hfloor, hnat, hdigits]
  decide

/-- The string `toFixed(2)` of the double mean of `1` and the double nearest to `1.01`. -/
lemma toFixed_unit_pair (numberToString : ℚ → String) :
    toFixed numberToString (4526117625507348 / 2 ^ 52) 2 = "1.00" := by
  have hfloor : ⌊(4526117625507348 / 2 ^ 52 : ℚ) * 10 ^ 2 + 1 / 2⌋ = 100 := by
    rw [Int.floor_eq_iff]; norm_num
  have hnat : (100 : ℤ).toNat = 100 := rfl
  have hdigits : decimalDigits 100 = ['1', '0', '0'] := by
    norm_num [decimalDigits]
    decide
  have hneg : ¬ (4526117625507348 / 2 ^ 52 : ℚ) < 0 := by norm_num
  have hbig : ¬ (4526117625507348 / 2 ^ 52 : ℚ) ≥ 10 ^ 21 := by norm_num
  simp only [toFixed, if_neg hneg, if_neg hbig, hfloor, hnat, hdigits]
  decide

/-- On a finite number, `numberToFixed` is `toFixed` on its value. -/
lemma numberToFixed_finite (numberToString : ℚ → String) (x : ℚ) (f : ℕ) :
    numberToFixed numberToString (JSNumber.finite x) f = toFixed numberToString x f :=
  rfl

/-- The summary of a non-empty list is the string `toFixed(2)` of `avgMagNumber`. -/
lemma avgMag_eq_string (numberToString : ℚ → String) (quakes : List Feature)
    (hne : quakes ≠ []) :
    avgMag numberToString quakes =
      JSValue.string (numberToFixed numberToString (avgMagNumber quakes) 2) := by
  have hlen : totalQuakes quakes ≠ 0 := by
    simpa [totalQuakes] using hne
  simp only [avgMag, if_neg hlen]

/-- C6, counterexample: for the two events `unitQuake` and `nearUnitQuake`, of magnitudes
`1` and the double nearest to `1.01`, `avgMag` is the string `"1.00"`, which denotes `1`,
while the arithmetic mean of the two magnitudes rounded to 2 decimal digits is `1.01`:
`avgMag` is neither that number nor a numeral of it. -/
theorem avgMag_mean_counterexample :
    avgMag (fun _ => "") [unitQuake, nearUnitQuake] = JSValue.string "1.00" ∧
      decimalValue "1.00" = some 1 ∧
      roundTo2 (meanMagnitude [unitQuake, nearUnitQuake]) = 101 / 100 ∧
      avgMag (fun _ => "") [unitQuake, nearUnitQuake] ≠
        JSValue.number (roundTo2 (meanMagnitude [unitQuake, nearUnitQuake])) := by
  have h : avgMag (fun _ => "") [unitQuake, nearUnitQuake] = JSValue.string "1.00" := by
    rw [avgMag_eq_string _ _ (by simp), avgMagNumber_unit_pair, numberToFixed_finite,
      toFixed_unit_pair]
  have hvalue : decimalValue "1.00" = some 1 := by
    have hround : roundTo2 (4526117625507348 / 2 ^ 52) = 1 := by
      have hfloor : ⌊(4526117625507348 / 2 ^ 52 : ℚ) * 100 + 1 / 2⌋ = 100 := by
        rw [Int.floor_eq_iff]; norm_num
      rw [roundTo2, if_neg (by norm_num), round_eq, hfloor]
      norm_num
    have hparse := decimalValue_toFixed_two (fun _ => "") (4526117625507348 / 2 ^ 52)
      (by norm_num [abs_lt])
    rw [toFixed_unit_pair, hround] at hparse
    exact hparse
  have hmean : roundTo2 (meanMagnitude [unitQuake, nearUnitQuake]) = 101 / 100 := by
    have hm : meanMagnitude [unitQuake, nearUnitQuake] = 9052235251014697 / 2 ^ 53 := by
      norm_num [meanMagnitude, unitQuake, nearUnitQuake]
    have hfloor : ⌊(9052235251014697 / 2 ^ 53 : ℚ) * 100 + 1 / 2⌋ = 101 := by
      rw [Int.floor_eq_iff]; norm_num
    rw [hm, roundTo2, if_neg (by norm_num), round_eq, hfloor]
    norm_num
  exact ⟨h, hvalue, hmean, by rw [h]; exact fun hne => JSValue.noConfusion hne⟩

/-- C6, amended: for every non-empty filtered list, `totalQuakes` is the length of the
list and `avgMag` is a string, the result of `toFixed(2)` on the mean as the code computes
it in double arithmetic (`avgMagNumber`: the magnitudes added from `0` in list order, then
the division by the count, each result rounded to the nearest double). When that number
`x` is finite, it is within `((1 + 2^(-53))^(n+1) - 1) * (M + 2^(-1022))` of the arithmetic
mean of the `n` magnitudes, `M` being the mean of their absolute values, and, for
`|x| < 10^21`, the string is the decimal numeral, with exactly two digits after the point,
of `x` rounded to 2 decimal digits, which is within `1/200` of `x`. For one event whose
magnitude is a double, `x` is that magnitude. For the single event `limaQuake` the count
is `1` and `avgMag` is the string `"6.80"`. -/
theorem avgMag_of_nonempty (numberToString : ℚ → String) :
    (∀ quakes : List Feature, quakes ≠ [] →
      totalQuakes quakes = quakes.length ∧
        ∃ s : String, avgMag numberToString quakes = JSValue.string s ∧
          ∀ x : ℚ, avgMagNumber quakes = JSNumber.finite x →
            |x - meanMagnitude quakes| ≤
                ((1 + 1 / 2 ^ 53) ^ (quakes.length + 1) - 1) *
                  ((quakes.map fun eq => |eq.properties.mag|).sum / quakes.length +
                    1 / 2 ^ 1022) ∧
              (|x| < 10 ^ 21 →
                decimalValue s = some (roundTo2 x) ∧
                  (∃ (a : List Char) (d₁ d₂ : Char), s.data = a ++ ['.', d₁, d₂] ∧
                    d₁.isDigit = true ∧ d₂.isDigit = true) ∧
                  |roundTo2 x - x| ≤ 1 / 200)) ∧
      (∀ e : Feature, roundToDouble e.properties.mag = JSNumber.finite e.properties.mag →
        avgMagNumber [e] = JSNumber.finite e.properties.mag) ∧
      totalQuakes [limaQuake] = 1 ∧
      avgMag numberToString [limaQuake] = JSValue.string "6.80" := by
  refine ⟨fun quakes hne => ⟨rfl, _, avgMag_eq_string numberToString quakes hne,
    fun x hx => ⟨avgMagNumber_error quakes hne x hx, fun hrange => ?_⟩⟩, fun e he => ?_, rfl, ?_⟩
  · have hfixed : numberToFixed numberToString (avgMagNumber quakes) 2 =
        toFixed numberToString x 2 := by
      rw [hx]; rfl
    rw [hfixed]
    refine ⟨decimalValue_toFixed_two numberToString x hrange, ?_, abs_roundTo2_sub_le x⟩
    obtain ⟨a, b, hs, -, hb, hdig, -⟩ := toFixed_two_shape numberToString x hrange
    obtain ⟨d₁, d₂, rfl⟩ := List.length_eq_two.mp hb
    refine ⟨(if x < 0 then "-" else "").data ++ a, d₁, d₂, ?_,
      hdig d₁ (by simp), hdig d₂ (by simp)⟩
    rw [hs, String.data_append, List.append_assoc]
  · simp only [avgMagNumber, sumOfMags, totalQuakes, List.foldl_cons, List.foldl_nil, jsAdd,
      List.length_singleton, zero_add, he, jsDivByCount, Nat.cast_one, div_one]
  · rw [avgMag_eq_string _ _ (by simp), avgMagNumber_limaQuake, numberToFixed_finite,
      toFixed_lima]

/-- Witness for the amended C6 on the one-event list `[limaQuake]`, where the number
given to `toFixed(2)` is the double nearest to `6.8`. -/
theorem avgMag_of_nonempty_witness :
    ∃ s : String, avgMag (fun _ => "") [limaQuake] = JSValue.string s ∧
      decimalValue s = some (roundTo2 (7656119366529843 / 2 ^ 50)) ∧
      |(7656119366529843 / 2 ^ 50 : ℚ) - meanMagnitude [limaQuake]| ≤
        ((1 + 1 / 2 ^ 53) ^ ([limaQuake].length + 1) - 1) *
          (([limaQuake].map fun eq => |eq.properties.mag|).sum / [limaQuake].length +
            1 / 2 ^ 1022) := by
  obtain ⟨s, hs, hx⟩ := ((avgMag_of_nonempty fun _ => "").1 [limaQuake] (by simp)).2
  exact ⟨s, hs, ((hx _ avgMagNumber_limaQuake).2 (by norm_num [abs_lt])).1,
    (hx _ avgMagNumber_limaQuake).1⟩

/-! ## Marker colour -/

/-- C7: `getColor` gives `bg-red-600` exactly for `mag > 7`, `bg-orange-500` exactly for
`4 ≤ mag ≤ 7` and `bg-yellow-400` exactly for `mag < 4`; `7.0` and `4.0` are orange,
`7.01` is red and `3.99` is yellow. -/
theorem getColor_tiers :
    (∀ mag : ℚ, (getColor mag = "bg-red-600" ↔ mag > 7) ∧
      (getColor mag = "bg-orange-500" ↔ 4 ≤ mag ∧ mag ≤ 7) ∧
      (getColor mag = "bg-yellow-400" ↔ mag < 4)) ∧
    getColor 7.0 = "bg-orange-500" ∧ getColor 7.01 = "bg-red-600" ∧
    getColor 3.99 = "bg-yellow-400" ∧ getColor 4.0 = "bg-orange-500" := by
  have key : ∀ mag : ℚ, (getColor mag = "bg-red-600" ↔ mag > 7) ∧
      (getColor mag = "bg-orange-500" ↔ 4 ≤ mag ∧ mag ≤ 7) ∧
      (getColor mag = "bg-yellow-400" ↔ mag < 4) := by
    intro mag
    unfold getColor
    by_cases h7 : mag > 7
    · have h4 : ¬ mag < 4 := by linarith
      have h7' : ¬ mag ≤ 7 := not_le.mpr h7
      simp [h7, h4, h7']
    · by_cases h4 : mag ≥ 4
      · have h4' : ¬ mag < 4 := not_lt.mpr h4
        have h7' : mag ≤ 7 := not_lt.mp h7
        have h4'' : 4 ≤ mag := h4
        simp [h7, h4', h7', h4'']
      · have h4' : mag < 4 := not_le.mp h4
        have h4'' : ¬ 4 ≤ mag := h4
        simp [h7, h4', h4'']
  refine ⟨key, ?_, ?_, ?_, ?_⟩
  · exact (key 7.0).2.1.2 (by norm_num)
  · exact (key 7.01).1.2 (by norm_num)
  · exact (key 3.99).2.2.2 (by norm_num)
  · exact (key 4.0).2.1.2 (by norm_num)

end EarthquakeVisualizer
